import Mathlib

/-!
Verification of the Segment metadata layer of a columnar storage engine
(package `metadata`, file containing `Segment` and its operations).

The Go source of `Segment` is embedded shallowly: stateful methods become
pure functions returning the updated segment; machine integers become `Nat`;
`nil`-able pointers become `Option`; Go runtime panics become an explicit
outcome.  Types that the Segment code uses but whose source is not part of
this development (`BaseEntry`, `CommitInfo`, `Block`, the Catalog id
sequence, JSON marshalling) are modelled from the design specification and
marked as such in their doc comments.
-/

namespace AoeMeta

/-- Modelled from the spec: an external/applied index marker ("a marker of
how much of an external ingestion log a piece of storage state has
incorporated"); only its identifying number matters here.  `SimpleBatchId`
wraps a plain id into such a marker. -/
structure ExternalIndex where
  id : Nat
deriving DecidableEq, Repr

/-- Modelled from the spec: the operation tag of a commit record, one of
`Create, UpgradeSorted, SoftDelete`. -/
inductive OpT where
  | OpCreate
  | OpUpgradeSorted
  | OpSoftDelete
deriving DecidableEq, Repr

/-- Modelled from the spec: one commit record
`{transaction_id, commit_id, operation, applied_index?, external_index?, previous_index?}`. -/
structure CommitInfo where
  tranId : Nat
  commitId : Nat
  op : OpT
  appliedIndex : Option ExternalIndex := none
  externalIndex : Option ExternalIndex := none
  prevIndex : Option ExternalIndex := none
deriving DecidableEq, Repr

/-- Modelled from the spec: the versioned-entry base `{id, commit_chain}`.
`commitInfo` is the current (newest) commit record; `older` holds the
previous records, newest first (the singly linked `SSLLNode` chain). -/
structure BaseEntry where
  id : Nat
  commitInfo : CommitInfo
  older : List CommitInfo := []
deriving DecidableEq, Repr

/-- The full commit chain, newest record first. -/
def BaseEntry.records (e : BaseEntry) : List CommitInfo :=
  e.commitInfo :: e.older

/-- Modelled from the spec: appending a commit record pushes it in front of
the current head of the chain. -/
def BaseEntry.onNewCommit (e : BaseEntry) (c : CommitInfo) : BaseEntry :=
  { e with commitInfo := c, older := e.commitInfo :: e.older }

/-- Modelled from the spec: `as_of(commit_id)` returns the last record with
`commit_id <=` the argument, scanning from the newest backward; absent when
the entry had not yet been created.  The result is a base entry holding just
the resolved record. -/
def BaseEntry.UseCommitted (e : BaseEntry) (id : Nat) : Option BaseEntry :=
  match e.records.find? (fun c => c.commitId ≤ id) with
  | some c => some { id := e.id, commitInfo := c, older := [] }
  | none => none

/-- Modelled from the spec: `get_applied_index()` returns the last record's
`applied_index` if present. -/
def BaseEntry.GetAppliedIndex (e : BaseEntry) : Option Nat :=
  e.commitInfo.appliedIndex.map (fun x => x.id)

/-- Modelled from the spec: an entry is currently sorted when the last
commit op is `UpgradeSorted`. -/
def BaseEntry.IsSorted (e : BaseEntry) : Bool :=
  e.commitInfo.op == OpT.OpUpgradeSorted

/-- Modelled from the spec: an entry is currently soft-deleted when the last
commit op is `SoftDelete`. -/
def BaseEntry.IsSoftDeletedLocked (e : BaseEntry) : Bool :=
  e.commitInfo.op == OpT.OpSoftDelete

/-- The commit id of the record the entry was created with: the oldest
record of the chain. -/
def BaseEntry.createdCommitId (e : BaseEntry) : Nat :=
  (e.older.getLastD e.commitInfo).commitId

/-- A well-formed commit chain: commit ids strictly increase from the oldest
record to the newest, i.e. the newest-first `records` list is strictly
decreasing. -/
def chainSorted (e : BaseEntry) : Prop :=
  List.Chain' (fun a b => b.commitId < a.commitId) e.records

/-- Modelled from the spec: the schema limits a Table imposes on its
segments. -/
structure Schema where
  segmentMaxBlocks : Nat
  blockMaxRows : Nat
deriving DecidableEq, Repr

/-- Modelled from the spec: the Catalog's id sequence generator state, for
block ids and uncommitted transaction ids. -/
structure Sequence where
  blockId : Nat := 0
  uncommitId : Nat := 0
deriving DecidableEq, Repr

/-- Modelled from the spec: allocate the next block id (monotonic). -/
def Sequence.NextBlockId (s : Sequence) : Nat × Sequence :=
  (s.blockId + 1, { s with blockId := s.blockId + 1 })

/-- Modelled from the spec: allocate the next uncommitted transaction id. -/
def Sequence.NextUncommitId (s : Sequence) : Nat × Sequence :=
  (s.uncommitId + 1, { s with uncommitId := s.uncommitId + 1 })

/-- Modelled from the spec: inform the sequence of an id seen during replay
so the generator never reissues a used id. -/
def Sequence.TryUpdateBlockId (s : Sequence) (id : Nat) : Sequence :=
  if s.blockId < id then { s with blockId := id } else s

/-- Modelled from the spec: a Block `{entry_base, row_count,
parent_segment}`; the parent back-reference is kept as the owning segment's
id and is never serialized. -/
structure Block where
  base : BaseEntry
  count : Nat
  segmentRef : Option Nat := none
deriving DecidableEq, Repr

/-- Modelled from the spec: `is_full()` is `row_count >= configured
capacity` (the capacity lives in the owning table's schema). -/
def Block.IsFull (schema : Schema) (b : Block) : Bool :=
  schema.blockMaxRows ≤ b.count

/-- Modelled from the spec: a block's applied index is its base entry's
applied index. -/
def Block.GetAppliedIndex (b : Block) : Option Nat :=
  b.base.GetAppliedIndex

/-- Modelled from the spec: a block's `committed_view(commit_id)` resolves
its own chain via `as_of`, absent when the block did not yet exist. -/
def Block.CommittedView (b : Block) (id : Nat) : Option Block :=
  match b.base.UseCommitted id with
  | some be => some { base := be, count := b.count, segmentRef := none }
  | none => none

/-- Modelled from the spec: block creation allocates a new id from the
Catalog, sets op=Create and row_count=0, and records the parent segment. -/
def newBlockEntry (seq : Sequence) (segId : Nat) (tranId : Nat)
    (exIndex : Option ExternalIndex) : Block × Sequence :=
  let r := seq.NextBlockId
  ({ base :=
      { id := r.1,
        commitInfo :=
          { tranId := tranId, commitId := tranId, op := OpT.OpCreate,
            externalIndex := exIndex } },
     count := 0, segmentRef := some segId }, r.2)

/-- Modelled from the spec: `rebuild(parent)` on a Block reattaches the
non-owning back-reference to the owning segment. -/
def Block.rebuild (segId : Nat) (b : Block) : Block :=
  { b with segmentRef := some segId }

/-- Modelled from the spec: the serialized projection of a Block — every
field except the non-owning back-reference. -/
structure BlockData where
  base : BaseEntry
  count : Nat
deriving DecidableEq, Repr

/-- Modelled from the spec: serializing a block drops the back-reference. -/
def Block.marshal (b : Block) : BlockData :=
  { base := b.base, count := b.count }

/-- Modelled from the spec: deserializing a block leaves the back-reference
unset until `rebuild`. -/
def blockUnmarshal (d : BlockData) : Block :=
  { base := d.base, count := d.count, segmentRef := none }

/-- Modelled from the spec: the Table fields a Segment operation consults —
its identity and its schema limits. -/
structure Table where
  base : BaseEntry
  schema : Schema
deriving DecidableEq, Repr

/-- An association map from block id to position, standing for the Go
`map[uint64]int` field `IdIndex`. -/
def mapLookup (m : List (Nat × Nat)) (k : Nat) : Option Nat :=
  match m.find? (fun p => p.1 == k) with
  | some p => some p.2
  | none => none

/-- Map insertion: the new binding shadows and removes any old binding for
the same key. -/
def mapInsert (m : List (Nat × Nat)) (k v : Nat) : List (Nat × Nat) :=
  (k, v) :: m.filter (fun p => p.1 != k)

/-- The Segment: base entry, ordered block sequence, id-to-position index,
and the non-owning back-reference to the owning table (kept as the table's
id; never serialized, as is the index). -/
structure Segment where
  base : BaseEntry
  blockSet : List Block
  idIndex : List (Nat × Nat) := []
  tableRef : Option Nat := none
deriving DecidableEq, Repr

def Segment.IsSorted (e : Segment) : Bool :=
  e.base.IsSorted

def Segment.IsSoftDeletedLocked (e : Segment) : Bool :=
  e.base.IsSoftDeletedLocked

def Segment.onNewCommit (e : Segment) (c : CommitInfo) : Segment :=
  { e with base := e.base.onNewCommit c }

/-- `Segment.HasMaxBlocks`: sorted, or block count equal to the schema's
`SegmentMaxBlocks`. -/
def Segment.HasMaxBlocks (schema : Schema) (e : Segment) : Bool :=
  e.IsSorted || e.blockSet.length == schema.segmentMaxBlocks

/-- `Segment.Appendable`: when the segment has max blocks, appendable iff
the last block is not full (`none` stands for the index panic Go would hit
on an empty block set). -/
def Segment.Appendable (schema : Schema) (e : Segment) : Option Bool :=
  if e.HasMaxBlocks schema then
    e.blockSet.getLast?.map (fun b => !(b.IsFull schema))
  else some true

/-- `Segment.onNewBlock`: record the new block's position in the id index
and append it to the block sequence. -/
def Segment.onNewBlock (e : Segment) (entry : Block) : Segment :=
  { e with
    idIndex := mapInsert e.idIndex entry.base.id e.blockSet.length,
    blockSet := e.blockSet ++ [entry] }

/-- `Segment.CreateBlock`: make a new block entry and register it under the
write lock; with `autoCommit` the Catalog then persists one `ETCreateBlock`
log entry (persistence performs no further domain mutation). -/
def Segment.CreateBlock (e : Segment) (seq : Sequence) (tranId : Nat)
    (exIndex : Option ExternalIndex) (autoCommit : Bool) :
    Segment × Block × Sequence :=
  let r := newBlockEntry seq e.base.id tranId exIndex
  let e1 := e.onNewBlock r.1
  (e1, r.1, r.2)

/-- `Segment.SimpleCreateBlock`: `CreateBlock` with a freshly allocated
uncommitted transaction id and autoCommit. -/
def Segment.SimpleCreateBlock (e : Segment) (seq : Sequence)
    (exIndex : Option ExternalIndex) : Segment × Block × Sequence :=
  let r := seq.NextUncommitId
  e.CreateBlock r.2 r.1 exIndex true

/-- `Segment.calcAppliedIndex`: scan the blocks from the last position
(newest) backward and return the first per-block applied index present. -/
def Segment.calcAppliedIndex (e : Segment) : Option Nat :=
  e.blockSet.reverse.findSome? Block.GetAppliedIndex

/-- The error results of `Segment.Upgrade`. -/
inductive SegmentError where
  | UpgradeInfullSegmentErr
  | UpgradeNotNeededErr
deriving DecidableEq, Repr

/-- The outcome tag of `Segment.Upgrade`: success, an error value, or a Go
runtime panic (out-of-range index into `exIndice`). -/
inductive UpgradeRet where
  | ok
  | err (e : SegmentError)
  | panicked
deriving DecidableEq, Repr

/-- `Segment.Upgrade`: the upgrade protocol.  Returns the segment state at
return together with the outcome.  `exIndice = none` stands for a `nil`
slice; `some []` for a non-nil empty slice, which the Go code would index
out of range. -/
def Segment.Upgrade (schema : Schema) (e : Segment) (tranId : Nat)
    (exIndice : Option (List ExternalIndex)) (autoCommit : Bool) :
    Segment × UpgradeRet :=
  if !(e.HasMaxBlocks schema) then
    (e, UpgradeRet.err SegmentError.UpgradeInfullSegmentErr)
  else if e.IsSorted then
    (e, UpgradeRet.err SegmentError.UpgradeNotNeededErr)
  else if e.blockSet.any (fun blk => !(blk.IsFull schema)) then
    (e, UpgradeRet.err SegmentError.UpgradeInfullSegmentErr)
  else
    match e.base.commitInfo.op with
    | OpT.OpCreate =>
      let cInfo : CommitInfo :=
        { tranId := tranId, commitId := tranId, op := OpT.OpUpgradeSorted }
      match exIndice with
      | none =>
        let cInfo1 :=
          match e.calcAppliedIndex with
          | some i => { cInfo with appliedIndex := some { id := i } }
          | none => cInfo
        (e.onNewCommit cInfo1, UpgradeRet.ok)
      | some [] => (e, UpgradeRet.panicked)
      | some (x :: rest) =>
        let cInfo1 :=
          { cInfo with externalIndex := some x, prevIndex := rest.head? }
        (e.onNewCommit cInfo1, UpgradeRet.ok)
    | _ => (e, UpgradeRet.err SegmentError.UpgradeNotNeededErr)

/-- `Segment.CommittedView`: resolve the segment's own base entry via
`as_of`, then keep each block's committed view, discarding blocks that did
not yet exist at that commit id. -/
def Segment.CommittedView (e : Segment) (id : Nat) : Option Segment :=
  match e.base.UseCommitted id with
  | none => none
  | some baseEntry =>
    some { base := baseEntry,
           blockSet := e.blockSet.filterMap (fun blk => blk.CommittedView id),
           idIndex := [], tableRef := none }

/-- The serialized projection of a Segment: base entry and serialized
blocks; the id index and the table back-reference carry `json:"-"` and are
dropped. -/
structure SegmentData where
  base : BaseEntry
  blockSet : List BlockData
deriving DecidableEq, Repr

/-- `Segment.Marshal` as its JSON projection. -/
def Segment.Marshal (e : Segment) : SegmentData :=
  { base := e.base, blockSet := e.blockSet.map Block.marshal }

/-- `Segment.Unmarshal`: deserializing leaves the id index empty and the
back-references unset until `rebuild`. -/
def Segment.Unmarshal (d : SegmentData) : Segment :=
  { base := d.base, blockSet := d.blockSet.map blockUnmarshal,
    idIndex := [], tableRef := none }

/-- The loop body of `Segment.rebuild`: walk the block sequence with its
position, informing the Catalog sequence of each block id, reattaching each
block's parent reference and recording the id-to-position binding. -/
def rebuildBlocks (segId : Nat) (blks : List Block) (i : Nat)
    (idx : List (Nat × Nat)) (seq : Sequence) :
    List Block × List (Nat × Nat) × Sequence :=
  match blks with
  | [] => ([], idx, seq)
  | blk :: rest =>
    let seq1 := seq.TryUpdateBlockId blk.base.id
    let blk1 := blk.rebuild segId
    let idx1 := mapInsert idx blk.base.id i
    let r := rebuildBlocks segId rest (i + 1) idx1 seq1
    (blk1 :: r.1, r.2.1, r.2.2)

/-- `Segment.rebuild`: reattach the table back-reference, rebuild the id
index from the order-preserved block sequence, reattach every block's
parent reference, and feed every block id to the Catalog's sequence. -/
def Segment.rebuild (e : Segment) (table : Table) (seq : Sequence) :
    Segment × Sequence :=
  let r := rebuildBlocks e.base.id e.blockSet 0 [] seq
  ({ e with tableRef := some table.base.id, blockSet := r.1,
            idIndex := r.2.1 }, r.2.2)

/-- The log entry types relevant to segments and blocks. -/
inductive LogEntryType where
  | ETCreateSegment
  | ETUpgradeSegment
  | ETDropSegment
  | ETCreateBlock
  | ETUpgradeBlock
  | ETDropBlock
deriving DecidableEq, Repr

/-- The payload of a segment log entry: the segment's `BaseEntry` projection
plus the owning table id (`segmentLogEntry`; its `Catalog` field carries
`json:"-"` and is dropped). -/
structure SegmentLogEntryData where
  base : BaseEntry
  tableId : Option Nat
deriving DecidableEq, Repr

/-- A produced log entry: a type tag plus the serialized payload. -/
structure LogEntry where
  eType : LogEntryType
  payload : SegmentLogEntryData
deriving DecidableEq, Repr

/-- `Segment.toLogEntry` (lower-case): project the segment into a
`segmentLogEntry` carrying its base entry and owning table id. -/
def Segment.toLogEntry (e : Segment) : SegmentLogEntryData :=
  { base := e.base, tableId := e.tableRef }

/-- `Segment.ToLogEntry`: validate the entry type (dropping a segment that
is not soft-deleted, or an unsupported type, is a `panic`, rendered as
`none`), then emit the tagged log entry. -/
def Segment.ToLogEntry (e : Segment) (eType : LogEntryType) :
    Option LogEntry :=
  let ok : Bool :=
    match eType with
    | LogEntryType.ETCreateSegment => true
    | LogEntryType.ETUpgradeSegment => true
    | LogEntryType.ETDropSegment => e.IsSoftDeletedLocked
    | _ => false
  if ok then some { eType := eType, payload := e.toLogEntry } else none

/-- The id-index consistency invariant: every block id maps to its current
position in the block sequence. -/
def Segment.IndexConsistent (e : Segment) : Prop :=
  ∀ i, (h : i < e.blockSet.length) →
    mapLookup e.idIndex (e.blockSet.get ⟨i, h⟩).base.id = some i

/-- Iterating `CreateBlock` over a list of transaction ids, used to state
properties of arbitrary sequences of block creations. -/
def applyCreates : Segment × Sequence → List Nat → Segment × Sequence
  | p, [] => p
  | p, t :: ts =>
    let r := p.1.CreateBlock p.2 t none true
    applyCreates (r.1, r.2.2) ts

/-! Concrete sample data used to instantiate the verified properties. -/

/-- A schema allowing two blocks of five rows per segment. -/
def schema2 : Schema := { segmentMaxBlocks := 2, blockMaxRows := 5 }

/-- A fresh sequence state. -/
def seqZero : Sequence := {}

/-- A block at capacity for `schema2`. -/
def blkFull (i t : Nat) : Block :=
  { base := { id := i, commitInfo := { tranId := t, commitId := t, op := OpT.OpCreate } },
    count := 5 }

/-- An empty, appendable block. -/
def blkEmpty (i t : Nat) : Block :=
  { base := { id := i, commitInfo := { tranId := t, commitId := t, op := OpT.OpCreate } },
    count := 0 }

/-- A block at capacity carrying an applied index. -/
def blkApplied (i t a : Nat) : Block :=
  { base :=
      { id := i,
        commitInfo :=
          { tranId := t, commitId := t, op := OpT.OpCreate,
            appliedIndex := some { id := a } } },
    count := 5 }

/-- A freshly created segment base entry. -/
def segBase1 : BaseEntry :=
  { id := 1, commitInfo := { tranId := 1, commitId := 1, op := OpT.OpCreate } }

/-- A full two-block segment, eligible for upgrade under `schema2`. -/
def segFull2 : Segment :=
  { base := segBase1, blockSet := [blkFull 1 2, blkFull 2 3],
    idIndex := [(2, 1), (1, 0)], tableRef := some 7 }

/-- `segFull2` after a successful upgrade commit. -/
def segSorted2 : Segment :=
  segFull2.onNewCommit { tranId := 10, commitId := 10, op := OpT.OpUpgradeSorted }

/-- `segFull2` soft-deleted. -/
def segDropped : Segment :=
  segFull2.onNewCommit { tranId := 11, commitId := 11, op := OpT.OpSoftDelete }

/-- A one-block segment, short of `schema2`'s maximum. -/
def segInfull1 : Segment :=
  { base := segBase1, blockSet := [blkFull 1 2],
    idIndex := [(1, 0)], tableRef := some 7 }

/-- A two-block segment whose newest block is not yet full. -/
def segPart2 : Segment :=
  { base := segBase1, blockSet := [blkFull 1 2, blkEmpty 2 3],
    idIndex := [(2, 1), (1, 0)], tableRef := some 7 }

/-- A full two-block segment whose older block carries an applied index and
whose newest block carries none. -/
def segApplied2 : Segment :=
  { base := segBase1, blockSet := [blkApplied 1 2 100, blkFull 2 3],
    idIndex := [(2, 1), (1, 0)], tableRef := some 7 }

/-- An empty segment with no blocks yet. -/
def segEmpty : Segment :=
  { base := segBase1, blockSet := [], idIndex := [], tableRef := some 7 }

/-- A sample table owning the sample segments. -/
def table7 : Table :=
  { base := { id := 7,
              commitInfo := { tranId := 0, commitId := 0, op := OpT.OpCreate } },
    schema := schema2 }

/-! Helper lemmas shared by the claim proofs. -/

theorem hasMax_of_sorted (schema : Schema) (e : Segment) (h : e.IsSorted = true) :
    e.HasMaxBlocks schema = true := by
  simp [Segment.HasMaxBlocks, h]

theorem hasMax_of_len (schema : Schema) (e : Segment)
    (h : e.blockSet.length = schema.segmentMaxBlocks) :
    e.HasMaxBlocks schema = true := by
  simp [Segment.HasMaxBlocks, h]

theorem isSorted_false_of_create (e : Segment)
    (h : e.base.commitInfo.op = OpT.OpCreate) : e.IsSorted = false := by
  simp [Segment.IsSorted, BaseEntry.IsSorted, h]

theorem any_notFull_false (schema : Schema) (e : Segment)
    (h : ∀ b ∈ e.blockSet, b.IsFull schema = true) :
    (e.blockSet.any fun blk => !(blk.IsFull schema)) = false := by
  simp only [List.any_eq_false, Bool.not_eq_true']
  intro b hb
  simp [h b hb]

theorem upgrade_sorted_notNeeded (schema : Schema) (e : Segment) (t : Nat)
    (exI : Option (List ExternalIndex)) (ac : Bool) (hs : e.IsSorted = true) :
    e.Upgrade schema t exI ac = (e, UpgradeRet.err SegmentError.UpgradeNotNeededErr) := by
  have hm := hasMax_of_sorted schema e hs
  simp [Segment.Upgrade, hm, hs]

theorem upgrade_none_eq (schema : Schema) (e : Segment) (t : Nat) (ac : Bool)
    (hlen : e.blockSet.length = schema.segmentMaxBlocks)
    (hfull : ∀ b ∈ e.blockSet, b.IsFull schema = true)
    (hop : e.base.commitInfo.op = OpT.OpCreate) :
    e.Upgrade schema t none ac =
      (e.onNewCommit
        { tranId := t, commitId := t, op := OpT.OpUpgradeSorted,
          appliedIndex := e.calcAppliedIndex.map (fun i => ({ id := i } : ExternalIndex)) },
       UpgradeRet.ok) := by
  have hm := hasMax_of_len schema e hlen
  have hns := isSorted_false_of_create e hop
  have hany := any_notFull_false schema e hfull
  cases hc : e.calcAppliedIndex with
  | none => simp [Segment.Upgrade, hm, hns, hany, hop, hc]
  | some i => simp [Segment.Upgrade, hm, hns, hany, hop, hc]

theorem upgrade_cons_eq (schema : Schema) (e : Segment) (t : Nat) (ac : Bool)
    (x : ExternalIndex) (rest : List ExternalIndex)
    (hlen : e.blockSet.length = schema.segmentMaxBlocks)
    (hfull : ∀ b ∈ e.blockSet, b.IsFull schema = true)
    (hop : e.base.commitInfo.op = OpT.OpCreate) :
    e.Upgrade schema t (some (x :: rest)) ac =
      (e.onNewCommit
        { tranId := t, commitId := t, op := OpT.OpUpgradeSorted,
          externalIndex := some x, prevIndex := rest.head? },
       UpgradeRet.ok) := by
  have hm := hasMax_of_len schema e hlen
  have hns := isSorted_false_of_create e hop
  have hany := any_notFull_false schema e hfull
  simp [Segment.Upgrade, hm, hns, hany, hop]

/-! Claim theorems. -/

/-- Claim C1, counterexample: on a sorted segment (last commit op is
`UpgradeSorted`), `CreateBlock` and `SimpleCreateBlock` do not fail — they
append a new block to the block set, so the claim that block creation under
a sorted segment must fail is false on the code. -/
theorem createBlock_on_sorted_succeeds_cex :
    Segment.IsSorted segSorted2 = true
    ∧ (Segment.CreateBlock segSorted2 seqZero 20 none true).1.blockSet.length
        = segSorted2.blockSet.length + 1
    ∧ (Segment.SimpleCreateBlock segSorted2 seqZero none).1.blockSet.length
        = segSorted2.blockSet.length + 1 := by
  decide

/-- Claim C1, amended: `CreateBlock`/`SimpleCreateBlock` perform no
sortedness check — they always append exactly one block; the guard is
advisory instead: a sorted segment whose last block is full reports
`Appendable = false`. -/
theorem createBlock_appends_sorted_guard (schema : Schema) (e : Segment)
    (seq : Sequence) (tranId : Nat) (ex : Option ExternalIndex) (ac : Bool) :
    ((e.CreateBlock seq tranId ex ac).1.blockSet.length = e.blockSet.length + 1)
    ∧ ((e.SimpleCreateBlock seq ex).1.blockSet.length = e.blockSet.length + 1)
    ∧ (e.IsSorted = true → ∀ b, e.blockSet.getLast? = some b →
        b.IsFull schema = true → e.Appendable schema = some false) := by
  refine ⟨?_, ?_, ?_⟩
  · simp [Segment.CreateBlock, Segment.onNewBlock]
  · simp [Segment.SimpleCreateBlock, Segment.CreateBlock, Segment.onNewBlock]
  · intro hs b hb hf
    simp [Segment.Appendable, hasMax_of_sorted schema e hs, hb, hf]

/-- Claim C1, witness for the amended statement at a concrete sorted
segment. -/
theorem createBlock_appends_sorted_guard_witness :
    Segment.Appendable schema2 segSorted2 = some false :=
  (createBlock_appends_sorted_guard schema2 segSorted2 seqZero 20 none true).2.2
    (by decide) (blkFull 2 3) (by decide) (by decide)

/-- Claim C2: on a non-sorted segment, `Upgrade` fails with
`UpgradeInfullSegmentErr` whenever the block count differs from
`segmentMaxBlocks`, and also when the count matches but some block is not
full; in both cases the returned state is the unchanged segment. -/
theorem upgrade_infull_err (schema : Schema) (e : Segment) (tranId : Nat)
    (exI : Option (List ExternalIndex)) (ac : Bool) (hns : e.IsSorted = false) :
    (e.blockSet.length ≠ schema.segmentMaxBlocks →
       e.Upgrade schema tranId exI ac
         = (e, UpgradeRet.err SegmentError.UpgradeInfullSegmentErr))
    ∧ (e.blockSet.length = schema.segmentMaxBlocks →
       (∃ b ∈ e.blockSet, b.IsFull schema = false) →
       e.Upgrade schema tranId exI ac
         = (e, UpgradeRet.err SegmentError.UpgradeInfullSegmentErr)) := by
  constructor
  · intro hlen
    have hm : e.HasMaxBlocks schema = false := by
      simp [Segment.HasMaxBlocks, hns, hlen]
    simp [Segment.Upgrade, hm]
  · intro hlen hex
    have hm := hasMax_of_len schema e hlen
    have hany : (e.blockSet.any fun blk => !(blk.IsFull schema)) = true := by
      rcases hex with ⟨b, hb, hbf⟩
      simp only [List.any_eq_true]
      exact ⟨b, hb, by simp [hbf]⟩
    simp [Segment.Upgrade, hm, hns, hany]

/-- Claim C2, witness: a one-block segment under a two-block schema, and a
two-block segment with an empty newest block, both rejected with
`UpgradeInfullSegmentErr` and left unchanged. -/
theorem upgrade_infull_err_witness :
    Segment.Upgrade schema2 segInfull1 5 none true
      = (segInfull1, UpgradeRet.err SegmentError.UpgradeInfullSegmentErr)
    ∧ Segment.Upgrade schema2 segPart2 6 none true
      = (segPart2, UpgradeRet.err SegmentError.UpgradeInfullSegmentErr) :=
  ⟨(upgrade_infull_err schema2 segInfull1 5 none true (by decide)).1 (by decide),
   (upgrade_infull_err schema2 segPart2 6 none true (by decide)).2 (by decide)
     ⟨blkEmpty 2 3, by decide, by decide⟩⟩

/-- Claim C3: on a segment with exactly the maximum number of blocks, all
full, current op `Create`, the first `Upgrade` succeeds and appends one
commit record with op `UpgradeSorted`; the second `Upgrade` returns
`UpgradeNotNeededErr` leaving the state untouched. -/
theorem upgrade_twice (schema : Schema) (e : Segment) (t1 t2 : Nat)
    (exI1 exI2 : Option (List ExternalIndex)) (ac1 ac2 : Bool)
    (hlen : e.blockSet.length = schema.segmentMaxBlocks)
    (hfull : ∀ b ∈ e.blockSet, b.IsFull schema = true)
    (hop : e.base.commitInfo.op = OpT.OpCreate)
    (hex : exI1 ≠ some []) :
    (e.Upgrade schema t1 exI1 ac1).2 = UpgradeRet.ok
    ∧ (e.Upgrade schema t1 exI1 ac1).1.base.commitInfo.op = OpT.OpUpgradeSorted
    ∧ (e.Upgrade schema t1 exI1 ac1).1.base.older
        = e.base.commitInfo :: e.base.older
    ∧ ((e.Upgrade schema t1 exI1 ac1).1.Upgrade schema t2 exI2 ac2
        = ((e.Upgrade schema t1 exI1 ac1).1,
           UpgradeRet.err SegmentError.UpgradeNotNeededErr)) := by
  have step : ∃ c : CommitInfo,
      e.Upgrade schema t1 exI1 ac1 = (e.onNewCommit c, UpgradeRet.ok)
      ∧ c.op = OpT.OpUpgradeSorted := by
    cases exI1 with
    | none =>
      exact ⟨_, upgrade_none_eq schema e t1 ac1 hlen hfull hop, rfl⟩
    | some l =>
      cases l with
      | nil => exact absurd rfl hex
      | cons x rest =>
        exact ⟨_, upgrade_cons_eq schema e t1 ac1 x rest hlen hfull hop, rfl⟩
  obtain ⟨c, heq, hcop⟩ := step
  rw [heq]
  have hsorted : (e.onNewCommit c).IsSorted = true := by
    simp [Segment.onNewCommit, BaseEntry.onNewCommit, Segment.IsSorted,
      BaseEntry.IsSorted, hcop]
  refine ⟨rfl, ?_, ?_, ?_⟩
  · simp [Segment.onNewCommit, BaseEntry.onNewCommit, hcop]
  · simp [Segment.onNewCommit, BaseEntry.onNewCommit]
  · exact upgrade_sorted_notNeeded schema (e.onNewCommit c) t2 exI2 ac2 hsorted

/-- Claim C3, witness at the concrete full two-block segment. -/
theorem upgrade_twice_witness :
    (Segment.Upgrade schema2 segFull2 10 none true).2 = UpgradeRet.ok
    ∧ (Segment.Upgrade schema2 segFull2 10 none true).1.base.commitInfo.op
        = OpT.OpUpgradeSorted
    ∧ ((Segment.Upgrade schema2 segFull2 10 none true).1.Upgrade schema2 11 none true
        = ((Segment.Upgrade schema2 segFull2 10 none true).1,
           UpgradeRet.err SegmentError.UpgradeNotNeededErr)) := by
  have h := upgrade_twice schema2 segFull2 10 11 none none true true
    (by decide) (by decide) (by decide) (by decide)
  exact ⟨h.1, h.2.1, h.2.2.2⟩

/-- Claim C10: whenever `Upgrade` returns an error the segment state is the
unchanged input, and on success the block sequence and id index are
untouched while the commit chain grows by exactly the new record. -/
theorem upgrade_error_atomic (schema : Schema) (e : Segment) (t : Nat)
    (exI : Option (List ExternalIndex)) (ac : Bool) :
    (∀ er, (e.Upgrade schema t exI ac).2 = UpgradeRet.err er →
       (e.Upgrade schema t exI ac).1 = e)
    ∧ ((e.Upgrade schema t exI ac).2 = UpgradeRet.ok →
       (e.Upgrade schema t exI ac).1.blockSet = e.blockSet
       ∧ (e.Upgrade schema t exI ac).1.idIndex = e.idIndex
       ∧ (e.Upgrade schema t exI ac).1.base.older
           = e.base.commitInfo :: e.base.older) := by
  unfold Segment.Upgrade
  repeat' split
  all_goals
    refine ⟨fun er h => ?_, fun h => ?_⟩ <;>
      simp_all [Segment.onNewCommit, BaseEntry.onNewCommit]

/-- Claim C10, witness: an error case leaves the segment untouched and a
success case keeps blocks and index while appending one record. -/
theorem upgrade_error_atomic_witness :
    (Segment.Upgrade schema2 segInfull1 5 none true).1 = segInfull1
    ∧ (Segment.Upgrade schema2 segFull2 10 none true).1.blockSet = segFull2.blockSet :=
  ⟨(upgrade_error_atomic schema2 segInfull1 5 none true).1
      SegmentError.UpgradeInfullSegmentErr (by decide),
   ((upgrade_error_atomic schema2 segFull2 10 none true).2 (by decide)).1⟩

/-- Claim C9: `ToLogEntry` panics (modelled as `none`) on `ETDropSegment`
when the segment is not soft-deleted and on every type other than
`ETCreateSegment`/`ETUpgradeSegment`/`ETDropSegment`; on the supported
types it emits the log entry carrying the segment's base entry projection
and owning table id, tagged with the given type. -/
theorem toLogEntry_types (e : Segment) :
    (e.IsSoftDeletedLocked = false → e.ToLogEntry LogEntryType.ETDropSegment = none)
    ∧ (∀ t : LogEntryType, t ≠ LogEntryType.ETCreateSegment →
        t ≠ LogEntryType.ETUpgradeSegment → t ≠ LogEntryType.ETDropSegment →
        e.ToLogEntry t = none)
    ∧ (e.ToLogEntry LogEntryType.ETCreateSegment
        = some { eType := LogEntryType.ETCreateSegment,
                 payload := { base := e.base, tableId := e.tableRef } })
    ∧ (e.ToLogEntry LogEntryType.ETUpgradeSegment
        = some { eType := LogEntryType.ETUpgradeSegment,
                 payload := { base := e.base, tableId := e.tableRef } })
    ∧ (e.IsSoftDeletedLocked = true →
        e.ToLogEntry LogEntryType.ETDropSegment
          = some { eType := LogEntryType.ETDropSegment,
                   payload := { base := e.base, tableId := e.tableRef } }) := by
  refine ⟨?_, ?_, ?_, ?_, ?_⟩
  · intro h; simp [Segment.ToLogEntry, h]
  · intro t h1 h2 h3
    cases t <;> simp_all [Segment.ToLogEntry]
  · simp [Segment.ToLogEntry, Segment.toLogEntry]
  · simp [Segment.ToLogEntry, Segment.toLogEntry]
  · intro h; simp [Segment.ToLogEntry, Segment.toLogEntry, h]

theorem getLastD_mem (l : List CommitInfo) (d : CommitInfo) :
    l.getLastD d ∈ d :: l := by
  induction l generalizing d with
  | nil => simp
  | cons b t ih =>
    rw [List.getLastD_cons]
    exact List.mem_cons_of_mem d (ih b)

theorem chain_getLastD_min (d : CommitInfo) (l : List CommitInfo)
    (h : List.Chain' (fun a b => b.commitId < a.commitId) (d :: l)) :
    ∀ c ∈ d :: l, (l.getLastD d).commitId ≤ c.commitId := by
  induction l generalizing d with
  | nil =>
    intro c hc
    simp only [List.mem_singleton] at hc
    subst hc
    simp
  | cons b t ih =>
    have hdb : b.commitId < d.commitId := (List.chain'_cons.mp h).1
    have ht : List.Chain' (fun a b => b.commitId < a.commitId) (b :: t) :=
      (List.chain'_cons.mp h).2
    intro c hc
    rw [List.getLastD_cons]
    rcases List.mem_cons.mp hc with rfl | hc2
    · exact le_of_lt (lt_of_le_of_lt (ih b ht b (List.mem_cons_self b t)) hdb)
    · exact ih b ht c hc2

theorem useCommitted_isSome_iff (b : BaseEntry) (id : Nat) (hc : chainSorted b) :
    (b.UseCommitted id).isSome = true ↔ b.createdCommitId ≤ id := by
  unfold BaseEntry.UseCommitted
  constructor
  · intro hs
    cases hf : b.records.find? (fun c => c.commitId ≤ id) with
    | none => rw [hf] at hs; simp at hs
    | some c =>
      have hmem := List.mem_of_find?_eq_some hf
      have hp := List.find?_some hf
      simp only [decide_eq_true_eq] at hp
      have := chain_getLastD_min b.commitInfo b.older hc c hmem
      exact le_trans this hp
  · intro hle
    cases hf : b.records.find? (fun c => c.commitId ≤ id) with
    | none =>
      exfalso
      have := List.find?_eq_none.mp hf (b.older.getLastD b.commitInfo)
        (getLastD_mem b.older b.commitInfo)
      simp only [decide_eq_true_eq] at this
      exact this hle
    | some c => simp [hf]

theorem blockCommittedView_isSome_iff (b : Block) (id : Nat)
    (hc : chainSorted b.base) :
    ((b.CommittedView id).isSome = true) ↔ b.base.createdCommitId ≤ id := by
  rw [← useCommitted_isSome_iff b.base id hc]
  unfold Block.CommittedView
  cases b.base.UseCommitted id <;> simp

theorem committedView_keeps_id (b : Block) (id : Nat) (bv : Block)
    (h : b.CommittedView id = some bv) : bv.base.id = b.base.id := by
  unfold Block.CommittedView BaseEntry.UseCommitted at h
  cases hf : b.base.records.find? (fun c => c.commitId ≤ id) with
  | none => rw [hf] at h; simp at h
  | some c =>
    rw [hf] at h
    cases h
    rfl

theorem filterMap_view_ids (id : Nat) (l : List Block) :
    (l.filterMap (fun b => b.CommittedView id)).map (fun b => b.base.id)
      = (l.filter (fun b => (b.CommittedView id).isSome)).map (fun b => b.base.id) := by
  induction l with
  | nil => rfl
  | cons b t ih =>
    cases hb : b.CommittedView id with
    | none => simp [List.filterMap_cons, hb, List.filter_cons, ih]
    | some bv =>
      simp [List.filterMap_cons, hb, List.filter_cons, ih,
        committedView_keeps_id b id bv hb]

/-- Claim C4: in a successful upgrade, supplying explicit external indices
stores the first as the new record's external index and the second (when
present) as its previous index; supplying none computes the applied index
by scanning the blocks from the last position (newest) backward, taking the
first present per-block applied index, absent when no block has one. -/
theorem upgrade_applied_index (schema : Schema) (e : Segment) (tranId : Nat)
    (ac : Bool)
    (hlen : e.blockSet.length = schema.segmentMaxBlocks)
    (hfull : ∀ b ∈ e.blockSet, b.IsFull schema = true)
    (hop : e.base.commitInfo.op = OpT.OpCreate) :
    (∀ (x : ExternalIndex) (rest : List ExternalIndex),
       (e.Upgrade schema tranId (some (x :: rest)) ac).1.base.commitInfo.externalIndex
         = some x
       ∧ (e.Upgrade schema tranId (some (x :: rest)) ac).1.base.commitInfo.prevIndex
         = rest.head?)
    ∧ ((e.Upgrade schema tranId none ac).1.base.commitInfo.appliedIndex
        = e.calcAppliedIndex.map (fun i => ({ id := i } : ExternalIndex)))
    ∧ (∀ (l₁ l₂ : List Block) (b : Block), e.blockSet = l₁ ++ b :: l₂ →
        (b.GetAppliedIndex).isSome = true →
        (∀ bb ∈ l₂, bb.GetAppliedIndex = none) →
        e.calcAppliedIndex = b.GetAppliedIndex)
    ∧ ((∀ bb ∈ e.blockSet, bb.GetAppliedIndex = none) →
        e.calcAppliedIndex = none) := by
  refine ⟨?_, ?_, ?_, ?_⟩
  · intro x rest
    rw [upgrade_cons_eq schema e tranId ac x rest hlen hfull hop]
    simp [Segment.onNewCommit, BaseEntry.onNewCommit]
  · rw [upgrade_none_eq schema e tranId ac hlen hfull hop]
    simp [Segment.onNewCommit, BaseEntry.onNewCommit]
  · intro l₁ l₂ b hsplit hsome hnone
    unfold Segment.calcAppliedIndex
    rw [hsplit, List.reverse_append, List.reverse_cons, List.append_assoc,
      List.singleton_append, List.findSome?_append]
    have h2 : l₂.reverse.findSome? Block.GetAppliedIndex = none := by
      rw [List.findSome?_eq_none_iff]
      intro bb hbb
      exact hnone bb (List.mem_reverse.mp hbb)
    rw [h2, Option.none_or, List.findSome?_cons_of_isSome _ hsome]
  · intro hall
    unfold Segment.calcAppliedIndex
    rw [List.findSome?_eq_none_iff]
    intro bb hbb
    exact hall bb (List.mem_reverse.mp hbb)

/-- Claim C4, witness: explicit indices are taken positionally; with none
supplied, the scan from the newest block backward finds the older block's
applied index 100. -/
theorem upgrade_applied_index_witness :
    (Segment.Upgrade schema2 segApplied2 10 (some [{ id := 5 }, { id := 4 }])
        true).1.base.commitInfo.externalIndex = some { id := 5 }
    ∧ (Segment.Upgrade schema2 segApplied2 10 (some [{ id := 5 }, { id := 4 }])
        true).1.base.commitInfo.prevIndex = some { id := 4 }
    ∧ (Segment.Upgrade schema2 segApplied2 10 none true).1.base.commitInfo.appliedIndex
        = some { id := 100 } := by
  have h := upgrade_applied_index schema2 segApplied2 10 true
    (by decide) (by decide) (by decide)
  refine ⟨(h.1 { id := 5 } [{ id := 4 }]).1, (h.1 { id := 5 } [{ id := 4 }]).2, ?_⟩
  rw [h.2.1]
  decide

/-- Claim C5: `CommittedView(commit_id)` keeps, in original order, exactly
the per-block committed views that are present — for a well-formed chain a
block's view is present iff its creation commit id is at most the given
commit id — and returns absent for a commit id older than the segment's own
creation commit id. -/
theorem committedView_spec (e : Segment) (id : Nat) :
    (∀ view, e.CommittedView id = some view →
       view.blockSet = e.blockSet.filterMap (fun blk => blk.CommittedView id)
       ∧ view.blockSet.map (fun b => b.base.id)
           = (e.blockSet.filter
               (fun b => (b.CommittedView id).isSome)).map (fun b => b.base.id))
    ∧ (∀ b : Block, chainSorted b.base →
        (((b.CommittedView id).isSome = true) ↔ b.base.createdCommitId ≤ id))
    ∧ (chainSorted e.base → id < e.base.createdCommitId →
        e.CommittedView id = none) := by
  refine ⟨?_, ?_, ?_⟩
  · intro view hv
    unfold Segment.CommittedView at hv
    cases hu : e.base.UseCommitted id with
    | none => rw [hu] at hv; cases hv
    | some be =>
      rw [hu] at hv
      cases hv
      exact ⟨rfl, filterMap_view_ids id e.blockSet⟩
  · exact fun b hc => blockCommittedView_isSome_iff b id hc
  · intro hc hlt
    have hu : e.base.UseCommitted id = none := by
      unfold BaseEntry.UseCommitted
      rw [List.find?_eq_none.mpr]
      intro c hcm
      have := chain_getLastD_min e.base.commitInfo e.base.older hc c hcm
      simp only [decide_eq_true_eq]
      unfold BaseEntry.createdCommitId at hlt
      omega
    unfold Segment.CommittedView
    rw [hu]

/-- Claim C5, witness: on the sorted sample segment, the view at commit 2
keeps exactly the block created at commit 2; the block created at commit 3
has no view at commit 2; a commit id older than the segment's creation
commit id yields absent. -/
theorem committedView_spec_witness :
    Segment.CommittedView segSorted2 0 = none
    ∧ ((blkFull 1 2).CommittedView 2).isSome = true
    ∧ ((blkFull 2 3).CommittedView 2).isSome = false
    ∧ (Segment.CommittedView segSorted2 2).map
        (fun v => v.blockSet.map (fun b => b.base.id)) = some [1] := by
  have hc1 : chainSorted segSorted2.base := by
    unfold chainSorted
    simp [BaseEntry.records, segSorted2, segFull2, segBase1,
      Segment.onNewCommit, BaseEntry.onNewCommit]
  have hc2 : chainSorted (blkFull 1 2).base := by
    unfold chainSorted
    simp [BaseEntry.records, blkFull]
  have hc3 : chainSorted (blkFull 2 3).base := by
    unfold chainSorted
    simp [BaseEntry.records, blkFull]
  refine ⟨(committedView_spec segSorted2 0).2.2 hc1 (by decide),
          ((committedView_spec segSorted2 2).2.1 (blkFull 1 2) hc2).mpr
            (by decide), ?_, ?_⟩
  · have h := (committedView_spec segSorted2 2).2.1 (blkFull 2 3) hc3
    cases hb : ((blkFull 2 3).CommittedView 2).isSome with
    | false => rfl
    | true => exact absurd (h.mp hb) (by decide)
  · cases hv : Segment.CommittedView segSorted2 2 with
    | none =>
      exfalso
      revert hv
      decide
    | some view =>
      have h := ((committedView_spec segSorted2 2).1 view hv).2
      rw [Option.map_some', h]
      decide

theorem createBlock_blockSet (e : Segment) (seq : Sequence) (t : Nat)
    (ex : Option ExternalIndex) (ac : Bool) :
    (e.CreateBlock seq t ex ac).1.blockSet
      = e.blockSet ++ [(newBlockEntry seq e.base.id t ex).1]
    ∧ (e.CreateBlock seq t ex ac).1.base = e.base := by
  exact ⟨rfl, rfl⟩

theorem applyCreates_len (p : Segment × Sequence) (ts : List Nat) :
    (applyCreates p ts).1.blockSet.length = p.1.blockSet.length + ts.length := by
  induction ts generalizing p with
  | nil => rfl
  | cons t rest ih =>
    rw [applyCreates, ih]
    simp [Segment.CreateBlock, Segment.onNewBlock]
    omega

theorem applyCreates_base (p : Segment × Sequence) (ts : List Nat) :
    (applyCreates p ts).1.base = p.1.base := by
  induction ts generalizing p with
  | nil => rfl
  | cons t rest ih => rw [applyCreates, ih]; rfl

/-- Claim C6: `HasMaxBlocks` holds iff the segment is sorted or the block
count equals the schema maximum; over any sequence of `CreateBlock` calls
staying within the maximum it becomes true exactly when the count reaches
the maximum, and once true it stays true across `Upgrade`. -/
theorem hasMaxBlocks_monotonic (schema : Schema) (e : Segment) :
    (e.HasMaxBlocks schema = true ↔
       (e.IsSorted = true ∨ e.blockSet.length = schema.segmentMaxBlocks))
    ∧ (∀ (seq : Sequence) (ts : List Nat),
        e.IsSorted = false →
        e.blockSet.length + ts.length ≤ schema.segmentMaxBlocks →
        ((applyCreates (e, seq) ts).1.HasMaxBlocks schema = true
          ↔ e.blockSet.length + ts.length = schema.segmentMaxBlocks))
    ∧ (∀ t exI ac, e.HasMaxBlocks schema = true →
        ((e.Upgrade schema t exI ac).1.HasMaxBlocks schema = true)) := by
  refine ⟨?_, ?_, ?_⟩
  · simp [Segment.HasMaxBlocks]
  · intro seq ts hns _
    have hlen := applyCreates_len (e, seq) ts
    have hbase := applyCreates_base (e, seq) ts
    unfold Segment.HasMaxBlocks Segment.IsSorted
    unfold Segment.IsSorted at hns
    rw [hbase, hlen, hns]
    simp
  · intro t exI ac h
    unfold Segment.Upgrade
    repeat' split
    all_goals
      first
      | exact h
      | simp_all [Segment.onNewCommit, BaseEntry.onNewCommit,
          Segment.HasMaxBlocks, Segment.IsSorted, BaseEntry.IsSorted]

/-- Claim C6, witness: from an empty segment under a two-block schema, two
creations reach the maximum, one does not, and a successful upgrade
preserves `HasMaxBlocks`. -/
theorem hasMaxBlocks_monotonic_witness :
    ((applyCreates (segEmpty, seqZero) [4, 5]).1.HasMaxBlocks schema2 = true)
    ∧ ((applyCreates (segEmpty, seqZero) [4]).1.HasMaxBlocks schema2 = false)
    ∧ ((Segment.Upgrade schema2 segFull2 10 none true).1.HasMaxBlocks schema2
        = true) := by
  refine ⟨?_, ?_, ?_⟩
  · exact ((hasMaxBlocks_monotonic schema2 segEmpty).2.1 seqZero [4, 5]
      (by decide) (by decide)).mpr (by decide)
  · have h := (hasMaxBlocks_monotonic schema2 segEmpty).2.1 seqZero [4]
      (by decide) (by decide)
    cases hb : (applyCreates (segEmpty, seqZero) [4]).1.HasMaxBlocks schema2 with
    | false => rfl
    | true => exact absurd (h.mp hb) (by decide)
  · exact (hasMaxBlocks_monotonic schema2 segFull2).2.2 10 none true (by decide)

theorem rebuildBlocks_um (segId : Nat) (l : List Block) (i : Nat)
    (idx : List (Nat × Nat)) (seq : Sequence) :
    rebuildBlocks segId (l.map (fun b => blockUnmarshal (Block.marshal b))) i idx seq
      = rebuildBlocks segId l i idx seq := by
  induction l generalizing i idx seq with
  | nil => rfl
  | cons b rest ih =>
    simp only [List.map_cons, rebuildBlocks]
    rw [ih]
    rfl

/-- Claim C7: deserializing a serialized segment and rebuilding against the
table is indistinguishable from rebuilding the original segment — in
particular the rebuilt id index matches a fresh rebuild from the same
blocks exactly — and the round trip preserves the base entry (the whole
commit chain) and every non-back-reference block field. -/
theorem marshal_roundtrip (e : Segment) (t : Table) (s : Sequence) :
    ((Segment.Unmarshal e.Marshal).rebuild t s) = e.rebuild t s
    ∧ (Segment.Unmarshal e.Marshal).base = e.base
    ∧ (Segment.Unmarshal e.Marshal).blockSet.map Block.marshal
        = e.blockSet.map Block.marshal := by
  refine ⟨?_, rfl, ?_⟩
  · unfold Segment.rebuild
    simp only [Segment.Unmarshal, Segment.Marshal, List.map_map]
    rw [show (blockUnmarshal ∘ Block.marshal)
          = (fun b => blockUnmarshal (Block.marshal b)) from rfl,
        rebuildBlocks_um]
  · simp only [Segment.Unmarshal, Segment.Marshal, List.map_map]
    exact List.map_congr_left (fun b _ => rfl)

theorem find?_filter_keys (m : List (Nat × Nat)) (k k' : Nat) (h : k' ≠ k) :
    (m.filter (fun p => p.1 != k)).find? (fun p => p.1 == k')
      = m.find? (fun p => p.1 == k') := by
  induction m with
  | nil => rfl
  | cons a t ih =>
    by_cases ha : a.1 = k
    · rw [List.filter_cons_of_neg (by simp [ha]),
        List.find?_cons_of_neg _ (by simp [ha, Ne.symm h]), ih]
    · rw [List.filter_cons_of_pos (by simp [ha])]
      by_cases hp : a.1 = k'
      · rw [List.find?_cons_of_pos _ (by simp [hp]),
          List.find?_cons_of_pos _ (by simp [hp])]
      · rw [List.find?_cons_of_neg _ (by simp [hp]),
          List.find?_cons_of_neg _ (by simp [hp]), ih]

theorem mapLookup_insert_self (m : List (Nat × Nat)) (k v : Nat) :
    mapLookup (mapInsert m k v) k = some v := by
  unfold mapLookup mapInsert
  rw [List.find?_cons_of_pos _ (by simp)]

theorem mapLookup_insert_ne (m : List (Nat × Nat)) (k v k' : Nat) (h : k' ≠ k) :
    mapLookup (mapInsert m k v) k' = mapLookup m k' := by
  unfold mapLookup mapInsert
  rw [List.find?_cons_of_neg _ (by simp [Ne.symm h]), find?_filter_keys m k k' h]

theorem rebuildBlocks_fst (segId : Nat) (l : List Block) (i : Nat)
    (idx : List (Nat × Nat)) (seq : Sequence) :
    (rebuildBlocks segId l i idx seq).1 = l.map (Block.rebuild segId) := by
  induction l generalizing i idx seq with
  | nil => rfl
  | cons b rest ih => simp [rebuildBlocks, ih]

theorem rebuildBlocks_lookup_notmem (segId : Nat) (l : List Block) (i : Nat)
    (idx : List (Nat × Nat)) (seq : Sequence) (k : Nat)
    (hk : k ∉ l.map (fun b => b.base.id)) :
    mapLookup (rebuildBlocks segId l i idx seq).2.1 k = mapLookup idx k := by
  induction l generalizing i idx seq with
  | nil => rfl
  | cons b rest ih =>
    simp only [List.map_cons, List.mem_cons, not_or] at hk
    show mapLookup (rebuildBlocks segId rest (i + 1)
      (mapInsert idx b.base.id i) (seq.TryUpdateBlockId b.base.id)).2.1 k
        = mapLookup idx k
    rw [ih _ _ _ hk.2, mapLookup_insert_ne _ _ _ _ hk.1]

theorem rebuildBlocks_lookup (segId : Nat) (l : List Block) (i : Nat)
    (idx : List (Nat × Nat)) (seq : Sequence)
    (hnd : (l.map (fun b => b.base.id)).Nodup) :
    ∀ j, (h : j < l.length) →
      mapLookup (rebuildBlocks segId l i idx seq).2.1
        ((l.get ⟨j, h⟩).base.id) = some (i + j) := by
  induction l generalizing i idx seq with
  | nil => intro j h; exact absurd h (by simp)
  | cons b rest ih =>
    simp only [List.map_cons, List.nodup_cons] at hnd
    intro j h
    cases j with
    | zero =>
      show mapLookup (rebuildBlocks segId rest (i + 1)
        (mapInsert idx b.base.id i) (seq.TryUpdateBlockId b.base.id)).2.1
          b.base.id = some (i + 0)
      rw [rebuildBlocks_lookup_notmem segId rest (i + 1) _ _ _ hnd.1,
        mapLookup_insert_self]
      rfl
    | succ j' =>
      have h' : j' < rest.length := by simpa using h
      show mapLookup (rebuildBlocks segId rest (i + 1)
        (mapInsert idx b.base.id i) (seq.TryUpdateBlockId b.base.id)).2.1
          ((rest.get ⟨j', h'⟩).base.id) = some (i + (j' + 1))
      rw [ih _ _ _ hnd.2 j' h']
      congr 1
      omega

theorem tryUpdate_ge_id (s : Sequence) (id : Nat) :
    id ≤ (s.TryUpdateBlockId id).blockId := by
  unfold Sequence.TryUpdateBlockId
  split
  · exact le_refl _
  · rename_i h
    omega

theorem tryUpdate_ge_old (s : Sequence) (id : Nat) :
    s.blockId ≤ (s.TryUpdateBlockId id).blockId := by
  unfold Sequence.TryUpdateBlockId
  split
  · rename_i h
    exact le_of_lt h
  · exact le_refl _

theorem rebuildBlocks_seq_mono (segId : Nat) (l : List Block) (i : Nat)
    (idx : List (Nat × Nat)) (seq : Sequence) :
    seq.blockId ≤ (rebuildBlocks segId l i idx seq).2.2.blockId := by
  induction l generalizing i idx seq with
  | nil => exact le_refl _
  | cons b rest ih =>
    show seq.blockId ≤ (rebuildBlocks segId rest (i + 1)
      (mapInsert idx b.base.id i) (seq.TryUpdateBlockId b.base.id)).2.2.blockId
    exact le_trans (tryUpdate_ge_old seq b.base.id) (ih _ _ _)

theorem rebuildBlocks_informed (segId : Nat) (l : List Block) (i : Nat)
    (idx : List (Nat × Nat)) (seq : Sequence) :
    ∀ b ∈ l, b.base.id ≤ (rebuildBlocks segId l i idx seq).2.2.blockId := by
  induction l generalizing i idx seq with
  | nil => intro b hb; cases hb
  | cons b rest ih =>
    intro bb hbb
    rcases List.mem_cons.mp hbb with rfl | h2
    · exact le_trans (tryUpdate_ge_id seq bb.base.id)
        (rebuildBlocks_seq_mono segId rest (i + 1) _ _)
    · exact ih _ _ _ bb h2

theorem onNewBlock_consistent (e : Segment) (entry : Block)
    (hcons : e.IndexConsistent)
    (hfresh : entry.base.id ∉ e.blockSet.map (fun b => b.base.id)) :
    (e.onNewBlock entry).IndexConsistent := by
  intro i hi
  have hi' : i < e.blockSet.length + 1 := by
    simpa [Segment.onNewBlock] using hi
  by_cases hlt : i < e.blockSet.length
  · have hget : ((e.onNewBlock entry).blockSet.get ⟨i, hi⟩)
        = e.blockSet.get ⟨i, hlt⟩ := by
      simp only [Segment.onNewBlock, List.get_eq_getElem]
      exact List.getElem_append_left hlt
    rw [hget]
    have hne : (e.blockSet.get ⟨i, hlt⟩).base.id ≠ entry.base.id := by
      intro hcontra
      exact hfresh (hcontra ▸ List.mem_map_of_mem (fun b => b.base.id)
        (e.blockSet.get_mem i hlt))
    show mapLookup (mapInsert e.idIndex entry.base.id e.blockSet.length)
      ((e.blockSet.get ⟨i, hlt⟩).base.id) = some i
    rw [mapLookup_insert_ne _ _ _ _ hne]
    exact hcons i hlt
  · have hieq : i = e.blockSet.length := by omega
    have hget : ((e.onNewBlock entry).blockSet.get ⟨i, hi⟩) = entry := by
      simp only [Segment.onNewBlock, List.get_eq_getElem]
      exact List.getElem_concat_length e.blockSet entry i hieq _
    rw [hget]
    show mapLookup (mapInsert e.idIndex entry.base.id e.blockSet.length)
      entry.base.id = some i
    rw [mapLookup_insert_self, hieq]

/-- Claim C8: after `rebuild(table)` the id index maps every block id to its
position, the table and per-block parent back-references are reattached,
and the Catalog sequence has absorbed every block id; `onNewBlock`
preserves the same index consistency during normal operation. -/
theorem rebuild_invariants (e : Segment) (t : Table) (s : Sequence)
    (hnd : (e.blockSet.map (fun b => b.base.id)).Nodup) :
    (e.rebuild t s).1.IndexConsistent
    ∧ (e.rebuild t s).1.tableRef = some t.base.id
    ∧ (∀ b ∈ (e.rebuild t s).1.blockSet, b.segmentRef = some e.base.id)
    ∧ (∀ b ∈ e.blockSet, b.base.id ≤ (e.rebuild t s).2.blockId)
    ∧ (∀ entry : Block, e.IndexConsistent →
        entry.base.id ∉ e.blockSet.map (fun b => b.base.id) →
        (e.onNewBlock entry).IndexConsistent) := by
  have hfst : (e.rebuild t s).1.blockSet
      = e.blockSet.map (Block.rebuild e.base.id) :=
    rebuildBlocks_fst e.base.id e.blockSet 0 [] s
  refine ⟨?_, rfl, ?_, ?_, fun entry h1 h2 => onNewBlock_consistent e entry h1 h2⟩
  · intro i hi
    have hlen : i < e.blockSet.length := by
      have h2 := hi
      rw [hfst] at h2
      simpa using h2
    have hkey : ((e.rebuild t s).1.blockSet.get ⟨i, hi⟩).base.id
        = (e.blockSet.get ⟨i, hlen⟩).base.id := by
      simp only [List.get_eq_getElem, hfst, List.getElem_map, Block.rebuild]
    rw [hkey]
    have hl := rebuildBlocks_lookup e.base.id e.blockSet 0 [] s hnd i hlen
    simpa using hl
  · intro b hb
    rw [hfst] at hb
    rcases List.mem_map.mp hb with ⟨bb, _, rfl⟩
    rfl
  · intro b hb
    exact rebuildBlocks_informed e.base.id e.blockSet 0 [] s b hb

/-- Claim C8, witness: rebuilding the sample two-block segment reattaches
the table reference and maps block id 2 to position 1. -/
theorem rebuild_invariants_witness :
    (segFull2.rebuild table7 seqZero).1.tableRef = some table7.base.id
    ∧ mapLookup (segFull2.rebuild table7 seqZero).1.idIndex 2 = some 1 := by
  have h := rebuild_invariants segFull2 table7 seqZero (by decide)
  refine ⟨h.2.1, ?_⟩
  have h2 := h.1 1 (by decide)
  exact h2

/-- Claim C9, witness: drop of a live segment and a block-typed entry are
rejected; drop of a soft-deleted segment produces the tagged entry. -/
theorem toLogEntry_types_witness :
    Segment.ToLogEntry segFull2 LogEntryType.ETDropSegment = none
    ∧ Segment.ToLogEntry segFull2 LogEntryType.ETCreateBlock = none
    ∧ Segment.ToLogEntry segDropped LogEntryType.ETDropSegment
        = some { eType := LogEntryType.ETDropSegment,
                 payload := { base := segDropped.base, tableId := segDropped.tableRef } } :=
  ⟨(toLogEntry_types segFull2).1 (by decide),
   (toLogEntry_types segFull2).2.1 LogEntryType.ETCreateBlock
     (by decide) (by decide) (by decide),
   (toLogEntry_types segDropped).2.2.2.2 (by decide)⟩

end AoeMeta
